import Mathlib

/-!
# Verification of the Purple-Parallax radial layout generator

A shallow embedding of `tools/build_data.py`: the script that converts a
taxonomy tree into precomputed radial layouts (one root payload plus one
payload per top-level branch).

Modelling conventions:
* Python floats are modelled as exact rationals (`ℚ`); all quantities the
  program computes (angular spans, radii, ring spacings) are rational-valued,
  so this is exact.
* Angles are measured in units of π: the source's `2 * math.pi` (the full
  circle) is the rational number `2` here.  All angle arithmetic in the source
  is linear (midpoints, proportional subdivision, cumulative sums), so every
  angle is an exact rational multiple of π and this rescaling is faithful.
* The source stores Cartesian `x = round(radius*cos(angle), 3)` and
  `y = round(radius*sin(angle), 3)`.  The trigonometric conversion and the
  3-decimal float rounding are an irrational / floating-point boundary; the
  embedding records the exact polar data (`radius`, `angle`) from which the
  source derives `x, y`.  Radius `0` corresponds to `x = y = 0`.
* `multiline_label` is a display-only label reformatting (inserting line
  breaks around `•`, `:`, `/`); the design document treats label text
  formatting as an out-of-scope external concern, and no claim depends on it,
  so the embedding records the raw `name` string.
* Python `str.lower()` is modelled as per-character ASCII lowercasing
  (`Char.toLower`); the two agree on all ASCII input, and any character on
  which they could differ is replaced by a hyphen anyway unless it is one of
  a handful of exotic Unicode codepoints that lowercase into `[a-z0-9]`.
-/

/-- `CHILDREN_PER_RING = 6` from the source. -/
def CHILDREN_PER_RING : Nat := 6

/-- Characters that survive `slugify`: the class `[a-z0-9]` of the regex. -/
def isSlugChar (c : Char) : Bool :=
  ('a' ≤ c && c ≤ 'z') || ('0' ≤ c && c ≤ '9')

mutual
/-- First pass of `slugify`: `re.sub(r"[^a-z0-9]+", "-", text)` — every
maximal run of characters outside `[a-z0-9]` becomes a single `'-'`. -/
def dashRuns : List Char → List Char
  | [] => []
  | c :: cs =>
    if isSlugChar c then c :: dashRuns cs else '-' :: dashRunsSkip cs
/-- State inside a non-`[a-z0-9]` run whose single `'-'` is already emitted. -/
def dashRunsSkip : List Char → List Char
  | [] => []
  | c :: cs =>
    if isSlugChar c then c :: dashRuns cs else dashRunsSkip cs
end

mutual
/-- Second pass of `slugify`: `re.sub(r"-+", "-", slug)` — collapse every
maximal run of hyphens to a single hyphen. -/
def collapseDashes : List Char → List Char
  | [] => []
  | c :: cs =>
    if c = '-' then '-' :: collapseDashesSkip cs else c :: collapseDashes cs
/-- State inside a hyphen run whose single `'-'` is already emitted. -/
def collapseDashesSkip : List Char → List Char
  | [] => []
  | c :: cs =>
    if c = '-' then collapseDashesSkip cs else c :: collapseDashes cs
end

/-- `str.strip("-")`: drop leading and trailing hyphens. -/
def stripDashes (l : List Char) : List Char :=
  ((l.dropWhile (· = '-')).reverse.dropWhile (· = '-')).reverse

/-- `slugify(text)` from the source: lowercase, replace each maximal
non-`[a-z0-9]` run by `'-'`, collapse hyphen runs, strip edge hyphens, and
fall back to `"node"` when the result is empty (`return slug or "node"`). -/
def slugify (text : String) : String :=
  let slug := stripDashes (collapseDashes (dashRuns (text.data.map Char.toLower)))
  if slug.isEmpty then "node" else String.mk slug

/-- `path_id(path)` from the source: `"-".join(slugify(segment) for segment in path)`. -/
def pathId (path : List String) : String :=
  String.intercalate "-" (path.map slugify)

/-- `str.strip("-")` applied only at the tail: drop trailing hyphens.
(`stripDashes` is this composed with a leading `dropWhile`.) -/
def stripTrail (l : List Char) : List Char :=
  (l.reverse.dropWhile (· = '-')).reverse

/-- Specification-side (claim wording): the maximal runs of `[a-z0-9]`
characters of a string — the segments that survive normalization. -/
def alnumTokens : List Char → List (List Char)
  | [] => []
  | c :: cs =>
    if isSlugChar c then
      (c :: cs.takeWhile isSlugChar) :: alnumTokens (cs.dropWhile isSlugChar)
    else
      alnumTokens (cs.dropWhile fun d => !isSlugChar d)
termination_by l => l.length
decreasing_by
  all_goals simp only [List.length_cons]
  · have := (List.dropWhile_sublist isSlugChar (l := cs)).length_le
    omega
  · have := (List.dropWhile_sublist (fun d => !isSlugChar d) (l := cs)).length_le
    omega

/-- Specification-side (claim wording): join token runs with single hyphens. -/
def joinToks : List (List Char) → List Char
  | [] => []
  | [t] => t
  | t :: t2 :: ts => t ++ '-' :: joinToks (t2 :: ts)

/-- Specification-side (claim wording for §4.1): lowercase, keep the maximal
alphanumeric runs, join them with single hyphens (hence no repeated and no
leading or trailing hyphen), and fall back to `"node"` when no alphanumeric
character remains. -/
def slugifySpec (text : String) : String :=
  let toks := alnumTokens (text.data.map Char.toLower)
  if toks.isEmpty then "node" else String.mk (joinToks toks)


/-- A taxonomy node: `{name, children}`.  A missing or `null` `children`
field in the JSON is read as the empty list by `node.get("children") or []`. -/
inductive TNode where
  | mk (name : String) (children : List TNode)

/-- The `name` field of a taxonomy node. -/
def TNode.name : TNode → String
  | .mk n _ => n

/-- The `children` field of a taxonomy node (missing/`null` ↦ `[]`). -/
def TNode.children : TNode → List TNode
  | .mk _ cs => cs

mutual
/-- `leaf_count(node)` from the source: 1 for a node without children,
otherwise the sum of the children's leaf counts. -/
def leafCount : TNode → Nat
  | .mk _ cs => if cs.isEmpty then 1 else leafCountList cs
/-- The sum `sum(leaf_count(child) for child in children)`. -/
def leafCountList : List TNode → Nat
  | [] => 0
  | c :: cs => leafCount c + leafCountList cs
end

/-- `link_distance(depth)` from the source. -/
def linkDistance (depth : Nat) : ℚ :=
  if depth = 0 then 0
  else if depth = 1 then 100
  else if depth = 2 then 130
  else 130 + ((depth : ℚ) - 2) * 20

/-- `ring_multiplier(depth, rings)` from the source. -/
def ringMultiplier (depth : Nat) (rings : Nat) : ℚ :=
  let base : ℚ := if depth ≤ 1 then 1.3 else if depth ≤ 3 then 1.5 else 1.7
  let extra : ℚ := (max 0 (rings - 1) : Nat) * 0.08
  min (base + extra) (base + 0.2)

/-- `max(1, math.ceil(n / CHILDREN_PER_RING))`: the number of rings a set of
`n` siblings occupies (`math.ceil` of the exact quotient, computed here as
Nat ceiling division). -/
def ringCount (n : Nat) : Nat :=
  max 1 ((n + CHILDREN_PER_RING - 1) / CHILDREN_PER_RING)

/-- The `ring_spacing` the source computes before iterating over `n` siblings
whose layout is placed at `depth`:
`extra_distance / (rings - 1) if rings > 1 else 0.0` with
`extra_distance = base_distance * max(0.0, max_multiplier - 1.0)`. -/
def ringSpacing (depth : Nat) (n : Nat) : ℚ :=
  let rings := ringCount n
  let baseDistance := linkDistance depth
  let maxMultiplier := ringMultiplier depth rings
  let extraDistance := baseDistance * max 0 (maxMultiplier - 1)
  if 1 < rings then extraDistance / ((rings : ℚ) - 1) else 0

/-- The radius the source assigns to the sibling at `index` (among `n`
siblings placed at `depth`, below a parent at `parentRadius`):
`radius + base_distance + ring_index * ring_spacing` with
`ring_index = index // CHILDREN_PER_RING`. -/
def childRadius (parentRadius : ℚ) (depth : Nat) (n : Nat) (index : Nat) : ℚ :=
  parentRadius + linkDistance depth + (index / CHILDREN_PER_RING : Nat) * ringSpacing depth n

/-- The angular span the source gives one child:
`span * leaves / total_leaves if total_leaves else span / len(children)`
(`total` is the summed leaf weight, `n` the number of children). -/
def childSpanQ (span : ℚ) (total : Nat) (n : Nat) (leaves : Nat) : ℚ :=
  if total ≠ 0 then span * leaves / total else span / n

/-- The full circle, in units of π: the source's `2 * math.pi`. -/
def fullCircle : ℚ := 2

/-- A layout node as emitted by the source (`id`, `name`, position, `depth`,
`hasChildren`, and — only for branch entries of the root payload — a
`childUrl`).  Position is recorded in exact polar form; the source stores
`x = round(radius*cos(angle·π), 3)` and `y = round(radius*sin(angle·π), 3)`. -/
structure LNode where
  id : String
  name : String
  radius : ℚ
  angle : ℚ
  depth : Nat
  hasChildren : Bool
  childUrl : Option String
  deriving DecidableEq, Repr

/-- An edge `{source, target}` as emitted by the source. -/
structure LEdge where
  source : String
  target : String
  deriving DecidableEq, Repr

/-- A branch payload `{rootId, nodes, edges}` (`branch-<slug>.json`). -/
structure BranchPayload where
  rootId : String
  nodes : List LNode
  edges : List LEdge
  deriving DecidableEq, Repr

/-- The root payload `{root, children, edges}` (`root.json`). -/
structure RootPayload where
  root : LNode
  children : List LNode
  edges : List LEdge
  deriving DecidableEq, Repr

mutual
/-- `assign_positions(node, path, depth, radius, start_angle, end_angle,
nodes, edges)` from the source.  The Python mutates two accumulator lists;
the embedding returns the `(nodes, edges)` this call appends, in order. -/
def assignPositions (node : TNode) (path : List String) (depth : Nat)
    (radius : ℚ) (startAngle endAngle : ℚ) : List LNode × List LEdge :=
  match node with
  | .mk name children =>
    let nodeId := pathId (path ++ [name])
    let angle := (startAngle + endAngle) / 2
    let self : LNode :=
      { id := nodeId, name := name, radius := radius, angle := angle,
        depth := depth, hasChildren := !children.isEmpty, childUrl := none }
    let selfEdges : List LEdge :=
      if path.isEmpty then [] else [{ source := pathId path, target := nodeId }]
    if children.isEmpty then ([self], selfEdges)
    else
      let total := leafCountList children
      let span := endAngle - startAngle
      let rest := assignChildren (path ++ [name]) depth radius total span
        children.length children 0 startAngle
      (self :: rest.1, selfEdges ++ rest.2)
/-- The `for index, child in enumerate(children)` loop of `assign_positions`:
`path1` is the children's ancestor path, `depth`/`radius` the parent's,
`total` the summed leaf weight, `span` the parent's angular span, `n` the
number of children; the last two arguments are the running `index` and the
angular `cursor`. -/
def assignChildren (path1 : List String) (depth : Nat) (radius : ℚ)
    (total : Nat) (span : ℚ) (n : Nat) :
    List TNode → Nat → ℚ → List LNode × List LEdge
  | [], _, _ => ([], [])
  | child :: rest, index, cursor =>
    let leaves := leafCount child
    let childSpan := childSpanQ span total n leaves
    let r := childRadius radius (depth + 1) n index
    let here := assignPositions child path1 (depth + 1) r cursor (cursor + childSpan)
    let there := assignChildren path1 depth radius total span n rest (index + 1) (cursor + childSpan)
    (here.1 ++ there.1, here.2 ++ there.2)
end

/-- `build_branch(node, parent_path)` from the source: lay the branch out as
its own tree — depth 0, radius 0, and the full circle as angular span. -/
def buildBranch (node : TNode) (parentPath : List String) : BranchPayload :=
  let out := assignPositions node parentPath 0 0 0 fullCircle
  { rootId := pathId (parentPath ++ [node.name]), nodes := out.1, edges := out.2 }

/-- File name of a branch payload: `f"branch-{branch_slug}.json"`. -/
def branchFileName (slug : String) : String :=
  "branch-" ++ slug ++ ".json"

/-- The branch payload files `main` writes, in loop order: for each top-level
child, the file `branch-<slug>.json` containing `build_branch(child, [master["name"]])`. -/
def mainBranchWrites (master : TNode) : List (String × BranchPayload) :=
  master.children.map fun c =>
    (branchFileName (slugify c.name), buildBranch c [master.name])

/-- The `for index, child in enumerate(children)` loop of `main` that builds
`root_nodes` and `root_edges` (the branch-file writes are modelled by
`mainBranchWrites`).  Arguments mirror `assignChildren`; the parent is the
master root at radius 0, the children sit at depth 1. -/
def rootChildren (masterName : String) (total : Nat) (span : ℚ) (n : Nat) :
    List TNode → Nat → ℚ → List LNode × List LEdge
  | [], _, _ => ([], [])
  | child :: rest, index, cursor =>
    let leaves := leafCount child
    let childSpan := childSpanQ span total n leaves
    let slug := slugify child.name
    let childId := pathId [masterName, child.name]
    let r := childRadius 0 1 n index
    let angle := (cursor + (cursor + childSpan)) / 2
    let node : LNode :=
      { id := childId, name := child.name, radius := r, angle := angle,
        depth := 1, hasChildren := !child.children.isEmpty,
        childUrl := some ("data/" ++ branchFileName slug) }
    let edge : LEdge := { source := pathId [masterName], target := childId }
    let there := rootChildren masterName total span n rest (index + 1) (cursor + childSpan)
    (node :: there.1, edge :: there.2)

/-- The `root_payload` value `main` writes to `root.json`: the master root
pinned at the origin (`x = y = 0`, modelled as radius 0) with literal
`depth: 0` and `hasChildren: True`, plus the top-level children and edges. -/
def rootPayloadOf (master : TNode) : RootPayload :=
  let children := master.children
  let total := leafCountList children
  let out := rootChildren master.name total fullCircle children.length children 0 0
  { root := { id := pathId [master.name], name := master.name, radius := 0, angle := 0,
              depth := 0, hasChildren := true, childUrl := none },
    children := out.1, edges := out.2 }

/-- A taxonomy node as read from the JSON document before any validation:
the required `name` field may be missing (`node["name"]` then raises
`KeyError`).  `children` is again `node.get("children") or []`. -/
inductive RawNode where
  | mk (name : Option String) (children : List RawNode)

/-- The optional `name` field of a raw node. -/
def RawNode.name : RawNode → Option String
  | .mk n _ => n

/-- The `children` field of a raw node. -/
def RawNode.children : RawNode → List RawNode
  | .mk _ cs => cs

mutual
/-- `leaf_count` on raw input: it touches only `children`, never `name`,
so it cannot fail. -/
def rawLeafCount : RawNode → Nat
  | .mk _ cs => if cs.isEmpty then 1 else rawLeafCountList cs
/-- Summed raw leaf counts. -/
def rawLeafCountList : List RawNode → Nat
  | [] => 0
  | c :: cs => rawLeafCount c + rawLeafCountList cs
end

mutual
/-- `assign_positions` on raw input: `node["name"]` aborts the run with an
exception when the field is missing, modelled as `Except.error`. -/
def rawAssignPositions (node : RawNode) (path : List String) (depth : Nat)
    (radius : ℚ) (startAngle endAngle : ℚ) :
    Except Unit (List LNode × List LEdge) :=
  match node with
  | .mk nameOpt children =>
    match nameOpt with
    | none => .error ()
    | some name =>
      let nodeId := pathId (path ++ [name])
      let angle := (startAngle + endAngle) / 2
      let self : LNode :=
        { id := nodeId, name := name, radius := radius, angle := angle,
          depth := depth, hasChildren := !children.isEmpty, childUrl := none }
      let selfEdges : List LEdge :=
        if path.isEmpty then [] else [{ source := pathId path, target := nodeId }]
      if children.isEmpty then .ok ([self], selfEdges)
      else
        let total := rawLeafCountList children
        let span := endAngle - startAngle
        match rawAssignChildren (path ++ [name]) depth radius total span
          children.length children 0 startAngle with
        | .error e => .error e
        | .ok rest => .ok (self :: rest.1, selfEdges ++ rest.2)
/-- The children loop of `assign_positions` on raw input: the first raised
`KeyError` aborts the whole loop (no later child is processed). -/
def rawAssignChildren (path1 : List String) (depth : Nat) (radius : ℚ)
    (total : Nat) (span : ℚ) (n : Nat) :
    List RawNode → Nat → ℚ → Except Unit (List LNode × List LEdge)
  | [], _, _ => .ok ([], [])
  | child :: rest, index, cursor =>
    let leaves := rawLeafCount child
    let childSpan := childSpanQ span total n leaves
    let r := childRadius radius (depth + 1) n index
    match rawAssignPositions child path1 (depth + 1) r cursor (cursor + childSpan) with
    | .error e => .error e
    | .ok here =>
      match rawAssignChildren path1 depth radius total span n rest (index + 1) (cursor + childSpan) with
      | .error e => .error e
      | .ok there => .ok (here.1 ++ there.1, here.2 ++ there.2)
end

/-- `build_branch` on raw input: `assign_positions` runs first; the
`rootId` then re-reads `node["name"]` (already known present if the layout
succeeded). -/
def rawBuildBranch (node : RawNode) (parentPath : List String) :
    Except Unit BranchPayload :=
  match rawAssignPositions node parentPath 0 0 0 fullCircle with
  | .error e => .error e
  | .ok out =>
    match node.name with
    | none => .error ()
    | some name => .ok { rootId := pathId (parentPath ++ [name]), nodes := out.1, edges := out.2 }

/-- The branch loop of `main` on raw input.  Per iteration, in source
evaluation order: `slugify(child["name"])` (may raise), `path_id([master["name"],
child["name"]])` (may raise), `build_branch(child, [master["name"]])` (may
raise), and only then the `write_text` of `branch-<slug>.json` — so the file
of a failing branch is never written, while files of earlier iterations
already are.  Returns the files written by the loop (in order) and either
the accumulated `(root_nodes, root_edges)` or the first error. -/
def rawMainLoop (masterName : Option String) (total : Nat) (span : ℚ) (n : Nat) :
    List RawNode → Nat → ℚ → List String × Except Unit (List LNode × List LEdge)
  | [], _, _ => ([], .ok ([], []))
  | child :: rest, index, cursor =>
    let leaves := rawLeafCount child
    let childSpan := childSpanQ span total n leaves
    match child.name with
    | none => ([], .error ())
    | some childName =>
      let slug := slugify childName
      match masterName with
      | none => ([], .error ())
      | some mName =>
        let childId := pathId [mName, childName]
        match rawBuildBranch child [mName] with
        | .error e => ([], .error e)
        | .ok _payload =>
          let r := childRadius 0 1 n index
          let angle := (cursor + (cursor + childSpan)) / 2
          let node : LNode :=
            { id := childId, name := childName, radius := r, angle := angle,
              depth := 1, hasChildren := !child.children.isEmpty,
              childUrl := some ("data/" ++ branchFileName slug) }
          let edge : LEdge := { source := pathId [mName], target := childId }
          let res := rawMainLoop masterName total span n rest (index + 1) (cursor + childSpan)
          (branchFileName slug :: res.1,
            match res.2 with
            | .error e => .error e
            | .ok there => .ok (node :: there.1, edge :: there.2))

/-- One full `main` run on raw input: the branch loop (writing one file per
successfully laid-out branch), then the root payload — whose construction
re-reads `master["name"]` — and finally the write of `root.json`.  Returns
the list of files written, in write order, and the run's outcome. -/
def rawMain (master : RawNode) : List String × Except Unit RootPayload :=
  let children := master.children
  let total := rawLeafCountList children
  let res := rawMainLoop master.name total fullCircle children.length children 0 0
  match res.2 with
  | .error e => (res.1, .error e)
  | .ok out =>
    match master.name with
    | none => (res.1, .error ())
    | some mName =>
      (res.1 ++ ["root.json"],
        .ok { root := { id := pathId [mName], name := mName, radius := 0, angle := 0,
                        depth := 0, hasChildren := true, childUrl := none },
              children := out.1, edges := out.2 })

mutual
/-- Specification-side: does any node of the document lack a `name`? -/
def hasMissingName : RawNode → Bool
  | .mk none _ => true
  | .mk (some _) cs => hasMissingNameList cs
/-- `hasMissingName` over a forest. -/
def hasMissingNameList : List RawNode → Bool
  | [] => false
  | c :: cs => hasMissingName c || hasMissingNameList cs
end

mutual
/-- Specification-side: the ancestor-name paths (root-inclusive) of all nodes
of a subtree, in depth-first preorder with children in source order. -/
def preorderPaths (path : List String) : TNode → List (List String)
  | .mk nm cs => (path ++ [nm]) :: preorderPathsList (path ++ [nm]) cs
/-- `preorderPaths` over a forest, in source order. -/
def preorderPathsList (path : List String) : List TNode → List (List String)
  | [] => []
  | c :: cs => preorderPaths path c ++ preorderPathsList path cs
end

mutual
/-- Specification-side: all nodes of a subtree (the node and its descendants),
in depth-first preorder. -/
def subtreeList : TNode → List TNode
  | .mk nm cs => .mk nm cs :: subtreeListForest cs
/-- `subtreeList` over a forest. -/
def subtreeListForest : List TNode → List TNode
  | [] => []
  | c :: cs => subtreeList c ++ subtreeListForest cs
end

/-- Claim-side (spec wording): ring count is `ceil(n / 6)`. -/
def ringCountSpec (n : Nat) : Nat := ⌈(n : ℚ) / 6⌉₊

/-- Claim-side (spec wording): base radial step — 100 for depth 1, 130 for
depth 2, `130 + 20×(depth−2)` for depth ≥ 3. -/
def baseStepSpec (d : Nat) : ℚ :=
  if d = 1 then 100 else if d = 2 then 130 else 130 + 20 * ((d : ℚ) - 2)

/-- Claim-side (spec wording): depth base of the spread multiplier — 1.3 for
depth ≤ 1, 1.5 for 2 ≤ depth ≤ 3, 1.7 for depth ≥ 4. -/
def depthBaseSpec (d : Nat) : ℚ :=
  if d ≤ 1 then 1.3 else if d ≤ 3 then 1.5 else 1.7

/-- Claim-side (spec wording): spread multiplier — depth base plus 0.08 per
ring beyond the first, capped at base + 0.2. -/
def multiplierSpec (d rings : Nat) : ℚ :=
  min (depthBaseSpec d + 0.08 * ((rings : ℚ) - 1)) (depthBaseSpec d + 0.2)

/-- Claim-side (spec wording): ring spacing — `baseStep × (multiplier − 1)`
divided by `ringCount − 1`, and 0 when there is a single ring. -/
def ringSpacingSpec (d n : Nat) : ℚ :=
  if ringCountSpec n = 1 then 0
  else baseStepSpec d * (multiplierSpec d (ringCountSpec n) - 1) / ((ringCountSpec n : ℚ) - 1)

/-- Claim-side (spec wording): the sibling at index `i` gets ring index
`i div 6` and radius `r + baseStep + ringIndex × ringSpacing`. -/
def childRadiusSpec (r : ℚ) (d n i : Nat) : ℚ :=
  r + baseStepSpec d + ((i / 6 : Nat) : ℚ) * ringSpacingSpec d n

/-- Claim-side (spec wording for §4.5): invoke the layout engine for a branch
with depth 0, radius 0 and the branch's proportional-by-weight share of the
master circle as its angular span (the share taken from the master-level
partition, starting at the branch's partition start angle). -/
def buildBranchByShare (master : TNode) (c : TNode) (startAngle : ℚ) : BranchPayload :=
  let width := fullCircle * (leafCount c : ℚ) / (leafCountList master.children : ℚ)
  { rootId := pathId [master.name, c.name],
    nodes := (assignPositions c [master.name] 0 0 startAngle (startAngle + width)).1,
    edges := (assignPositions c [master.name] 0 0 startAngle (startAngle + width)).2 }

/-- Strong structural induction for taxonomy trees. -/
theorem tnodeStrongInduction {P : TNode → Prop}
    (h : ∀ name children, (∀ c ∈ children, P c) → P (.mk name children)) :
    ∀ t, P t
  | .mk name children => by
    refine h name children fun c hc => ?_
    have hlt : sizeOf c < sizeOf (TNode.mk name children) := by
      have := List.sizeOf_lt_of_mem hc
      simp only [TNode.mk.sizeOf_spec]
      omega
    exact tnodeStrongInduction h c
termination_by t => sizeOf t

/-- Strong structural induction for raw (unvalidated) taxonomy trees. -/
theorem rawNodeStrongInduction {P : RawNode → Prop}
    (h : ∀ name children, (∀ c ∈ children, P c) → P (.mk name children)) :
    ∀ t, P t
  | .mk name children => by
    refine h name children fun c hc => ?_
    have hlt : sizeOf c < sizeOf (RawNode.mk name children) := by
      have := List.sizeOf_lt_of_mem hc
      simp only [RawNode.mk.sizeOf_spec]
      omega
    exact rawNodeStrongInduction h c
termination_by t => sizeOf t

theorem TNode.name_mk (n : String) (cs : List TNode) : TNode.name (.mk n cs) = n := rfl

theorem TNode.children_mk (n : String) (cs : List TNode) :
    TNode.children (.mk n cs) = cs := rfl

/-- `leafCountList` is the sum of the children's `leafCount`s. -/
theorem leafCountList_eq_sum (cs : List TNode) :
    leafCountList cs = (cs.map leafCount).sum := by
  induction cs with
  | nil => rfl
  | cons c rest ih => simp [leafCountList, ih]

/-- Subtree weights are positive: `leaf_count` never returns 0. -/
theorem leafCount_pos : ∀ t, 0 < leafCount t := by
  refine tnodeStrongInduction ?_
  intro name children ih
  match children with
  | [] => simp [leafCount]
  | c :: rest =>
    have hc := ih c (by simp)
    simp only [leafCount, List.isEmpty_cons, Bool.false_eq_true, if_false, leafCountList]
    omega

/-- The summed leaf weight of a non-empty children list is positive. -/
theorem leafCountList_pos (c : TNode) (rest : List TNode) :
    0 < leafCountList (c :: rest) := by
  have := leafCount_pos c
  simp only [leafCountList]
  omega

/-- Helper for claim C8: over a forest, summed leaf weight counts the leaf
descendants. -/
theorem leafCountList_eq_leaves (cs : List TNode)
    (ih : ∀ c ∈ cs, leafCount c =
      ((subtreeList c).filter fun d => d.children.isEmpty).length) :
    leafCountList cs =
      ((subtreeListForest cs).filter fun d => d.children.isEmpty).length := by
  induction cs with
  | nil => rfl
  | cons c rest ihl =>
    simp only [leafCountList, subtreeListForest, List.filter_append, List.length_append]
    rw [ih c (by simp), ihl fun d hd => ih d (by simp [hd])]

/-- Claim C8: `leaf_count` is 1 on a childless node, the sum of the children's
weights otherwise, and equals the number of leaf descendants (in particular it
is a positive integer). -/
theorem claim_c8_subtree_weight (t : TNode) :
    (t.children = [] → leafCount t = 1)
    ∧ (t.children ≠ [] → leafCount t = (t.children.map leafCount).sum)
    ∧ leafCount t = ((subtreeList t).filter fun d => d.children.isEmpty).length
    ∧ 0 < leafCount t := by
  induction t using tnodeStrongInduction with
  | h name children ih =>
    have hmain : leafCount (TNode.mk name children) =
        ((subtreeList (TNode.mk name children)).filter fun d => d.children.isEmpty).length := by
      match children with
      | [] => rfl
      | c :: rest =>
        have hf := leafCountList_eq_leaves (c :: rest) fun d hd => ((ih d hd).2.2).1
        simp only [leafCount, List.isEmpty_cons, Bool.false_eq_true, if_false, subtreeList,
          List.filter_cons, TNode.children_mk]
        rw [hf]
    refine ⟨fun h => ?_, fun h => ?_, hmain, leafCount_pos _⟩
    · simp only [TNode.children_mk] at h
      subst h
      rfl
    · simp only [TNode.children_mk] at h ⊢
      rw [leafCount, if_neg (by simpa using h), leafCountList_eq_sum]

/-- Claim C9: the division by total child weight is explicitly guarded — a
zero total falls back to an equal split — and for an actual node with a
non-empty children list the total is never zero (weights are ≥ 1), so the
proportional branch is the one taken. -/
theorem claim_c9_zero_weight_guard (t : TNode) (h : t.children ≠ []) :
    (∀ span : ℚ, ∀ n leaves : Nat, childSpanQ span 0 n leaves = span / n)
    ∧ leafCountList t.children ≠ 0
    ∧ (∀ span : ℚ, ∀ leaves : Nat,
        childSpanQ span (leafCountList t.children) t.children.length leaves
          = span * (leaves : ℚ) / (leafCountList t.children : ℚ)) := by
  have htot : leafCountList t.children ≠ 0 := by
    match ht : t.children with
    | [] => exact absurd ht h
    | c :: rest =>
      have := leafCountList_pos c rest
      omega
  refine ⟨fun span n leaves => by simp [childSpanQ], htot, fun span leaves => by simp [childSpanQ, htot]⟩

/-- Witness for claim C9 at a concrete two-node taxonomy. -/
theorem claim_c9_zero_weight_guard_witness :
    (TNode.mk "r" [.mk "a" []]).children ≠ []
    ∧ leafCountList (TNode.mk "r" [.mk "a" []]).children ≠ 0 :=
  ⟨by simp [TNode.children_mk],
    (claim_c9_zero_weight_guard (.mk "r" [.mk "a" []]) (by simp [TNode.children_mk])).2.1⟩

/-- `ring_multiplier` never falls below its depth base, hence is > 1. -/
theorem ringMultiplier_ge (d rings : Nat) : 1 ≤ ringMultiplier d rings := by
  have hbase : (1 : ℚ) ≤ (if d ≤ 1 then (1.3 : ℚ) else if d ≤ 3 then 1.5 else 1.7) := by
    split_ifs <;> norm_num
  have hextra : (0 : ℚ) ≤ ((max 0 (rings - 1) : Nat) : ℚ) * 0.08 := by positivity
  simp only [ringMultiplier, le_min_iff]
  constructor <;> nlinarith

/-- `max(1, ceil(n/6))` computed by the source equals the exact rational
ceiling `⌈n/6⌉` once there is at least one sibling. -/
theorem ringCount_eq_ceil (n : Nat) (hn : 1 ≤ n) : ringCount n = ringCountSpec n := by
  have hdm := Nat.div_add_mod (n + 5) 6
  have hmod : (n + 5) % 6 < 6 := Nat.mod_lt _ (by norm_num)
  set m := (n + 5) / 6 with hm
  have h1 : 1 ≤ m := by omega
  have hrc : ringCount n = m := by
    simp only [ringCount, CHILDREN_PER_RING]
    omega
  rw [hrc, ringCountSpec, eq_comm, Nat.ceil_eq_iff (by omega)]
  constructor
  · rw [lt_div_iff₀ (by norm_num : (0:ℚ) < 6)]
    exact_mod_cast (by omega : (m - 1) * 6 < n)
  · rw [div_le_iff₀ (by norm_num : (0:ℚ) < 6)]
    exact_mod_cast (by omega : n ≤ m * 6)

/-- Claim C6: for `n ≥ 1` siblings at depth `d ≥ 1` below a parent at radius
`r`, the ring count, base step, spread multiplier, ring spacing and per-index
radius computed by the source are exactly the ones the claim describes. -/
theorem claim_c6_ring_allocation (d n i : Nat) (r : ℚ) (hd : 1 ≤ d) (hn : 1 ≤ n) :
    ringCount n = ringCountSpec n
    ∧ linkDistance d = baseStepSpec d
    ∧ ringMultiplier d (ringCount n) = multiplierSpec d (ringCount n)
    ∧ ringSpacing d n = ringSpacingSpec d n
    ∧ childRadius r d n i = childRadiusSpec r d n i := by
  have hcount := ringCount_eq_ceil n hn
  have hrings1 : 1 ≤ ringCount n := by
    simp only [ringCount]
    omega
  have hstep : linkDistance d = baseStepSpec d := by
    match d, hd with
    | 1, _ => norm_num [linkDistance, baseStepSpec]
    | 2, _ => norm_num [linkDistance, baseStepSpec]
    | (k + 3), _ =>
      simp only [linkDistance, baseStepSpec]
      norm_num
      push_cast
      ring
  have hmult : ∀ rings, 1 ≤ rings → ringMultiplier d rings = multiplierSpec d rings := by
    intro rings hr
    simp only [ringMultiplier, multiplierSpec, depthBaseSpec]
    rw [Nat.max_eq_right (Nat.zero_le _), Nat.cast_sub hr]
    ring_nf
  have hspacing : ringSpacing d n = ringSpacingSpec d n := by
    have hge := ringMultiplier_ge d (ringCount n)
    simp only [ringSpacing, ringSpacingSpec, ← hcount, ← hstep, ← hmult _ hrings1]
    rw [max_eq_right (by linarith : (0:ℚ) ≤ ringMultiplier d (ringCount n) - 1)]
    rcases Nat.lt_or_ge 1 (ringCount n) with hgt | hle
    · rw [if_pos hgt, if_neg (by omega)]
    · have : ringCount n = 1 := by omega
      rw [if_neg (by omega), if_pos this]
  refine ⟨hcount, hstep, hmult _ hrings1, hspacing, ?_⟩
  simp only [childRadius, childRadiusSpec, CHILDREN_PER_RING, ← hstep, ← hspacing]

/-- Witness for claim C6: 13 siblings at depth 2, parent radius 50, index 7. -/
theorem claim_c6_ring_allocation_witness :
    1 ≤ 2 ∧ 1 ≤ 13
    ∧ childRadius 50 2 13 7 = childRadiusSpec 50 2 13 7 :=
  ⟨by norm_num, by norm_num,
    (claim_c6_ring_allocation 2 13 7 50 (by norm_num) (by norm_num)).2.2.2.2⟩

/-- Summing the proportional child spans over a forest. -/
theorem childSpan_sum (cs : List TNode) (span : ℚ) (total n : Nat) (htot : total ≠ 0) :
    (cs.map fun c => childSpanQ span total n (leafCount c)).sum
      = span * (leafCountList cs : ℚ) / (total : ℚ) := by
  induction cs with
  | nil => simp [leafCountList]
  | cons c rest ih =>
    rw [List.map_cons, List.sum_cons, ih,
      show childSpanQ span total n (leafCount c) = span * (leafCount c : ℚ) / (total : ℚ) from by
        simp [childSpanQ, htot],
      show leafCountList (c :: rest) = leafCount c + leafCountList rest from rfl]
    push_cast
    ring

/-- Claim C5: for a node with children (summed leaf weight is then positive),
the engine partitions the parent span `[sa, sa + span]` proportionally by leaf
weight: each child span is `span · leaves / total`, the spans sum exactly to
the parent span, the loop starts at the parent's start angle, and each child
is laid out on the contiguous interval `[cursor, cursor + childSpan]` with the
next sibling continuing exactly at `cursor + childSpan` (source order,
no gap, no overlap). -/
theorem claim_c5_angular_partition (cs : List TNode) (h : cs ≠ []) (span sa : ℚ)
    (p1 : List String) (d : Nat) (r : ℚ) :
    leafCountList cs ≠ 0
    ∧ (∀ c ∈ cs, childSpanQ span (leafCountList cs) cs.length (leafCount c)
        = span * (leafCount c : ℚ) / (leafCountList cs : ℚ))
    ∧ (cs.map fun c => childSpanQ span (leafCountList cs) cs.length (leafCount c)).sum = span
    ∧ (∀ name path depth radius,
        assignPositions (.mk name cs) path depth radius sa (sa + span)
          = ({ id := pathId (path ++ [name]), name := name, radius := radius,
               angle := (sa + (sa + span)) / 2, depth := depth,
               hasChildren := !cs.isEmpty, childUrl := none }
              :: (assignChildren (path ++ [name]) depth radius (leafCountList cs) span cs.length cs 0 sa).1,
             (if path.isEmpty then ([] : List LEdge)
              else [{ source := pathId path, target := pathId (path ++ [name]) }])
              ++ (assignChildren (path ++ [name]) depth radius (leafCountList cs) span cs.length cs 0 sa).2))
    ∧ (∀ c rest index cursor,
        assignChildren p1 d r (leafCountList cs) span cs.length (c :: rest) index cursor
          = ((assignPositions c p1 (d + 1) (childRadius r (d + 1) cs.length index) cursor
                (cursor + span * (leafCount c : ℚ) / (leafCountList cs : ℚ))).1
              ++ (assignChildren p1 d r (leafCountList cs) span cs.length rest (index + 1)
                (cursor + span * (leafCount c : ℚ) / (leafCountList cs : ℚ))).1,
             (assignPositions c p1 (d + 1) (childRadius r (d + 1) cs.length index) cursor
                (cursor + span * (leafCount c : ℚ) / (leafCountList cs : ℚ))).2
              ++ (assignChildren p1 d r (leafCountList cs) span cs.length rest (index + 1)
                (cursor + span * (leafCount c : ℚ) / (leafCountList cs : ℚ))).2)) := by
  have htot : leafCountList cs ≠ 0 := by
    match cs, h with
    | c :: rest, _ =>
      have := leafCountList_pos c rest
      omega
  have hspan : ∀ c ∈ cs, childSpanQ span (leafCountList cs) cs.length (leafCount c)
      = span * (leafCount c : ℚ) / (leafCountList cs : ℚ) := by
    intro c _
    simp [childSpanQ, htot]
  refine ⟨htot, hspan, ?_, ?_, ?_⟩
  · rw [childSpan_sum cs span (leafCountList cs) cs.length htot]
    field_simp
  · intro name path depth radius
    have hne : cs.isEmpty = false := by
      simp [List.isEmpty_iff, h]
    simp only [assignPositions, hne, Bool.false_eq_true, if_false]
    ring_nf
  · intro c rest index cursor
    simp only [assignChildren, childSpanQ, htot, ne_eq, not_false_iff, if_true]

/-- Witness for claim C5 at a concrete two-child forest with the full circle
as parent span. -/
theorem claim_c5_angular_partition_witness :
    ([.mk "a" [], .mk "b" []] : List TNode) ≠ []
    ∧ (([.mk "a" [], .mk "b" []] : List TNode).map fun c =>
        childSpanQ 2 (leafCountList [.mk "a" [], .mk "b" []])
          ([.mk "a" [], .mk "b" []] : List TNode).length (leafCount c)).sum = 2 :=
  ⟨by simp,
    (claim_c5_angular_partition [.mk "a" [], .mk "b" []] (by simp) 2 0 ["r"] 0 0).2.2.1⟩

/-- Witness for claim C8 at a concrete three-leaf taxonomy. -/
theorem claim_c8_subtree_weight_witness :
    (TNode.mk "r" [.mk "a" [], .mk "b" [.mk "c" []]]).children ≠ []
    ∧ leafCount (.mk "r" [.mk "a" [], .mk "b" [.mk "c" []]])
        = ((TNode.mk "r" [.mk "a" [], .mk "b" [.mk "c" []]]).children.map leafCount).sum :=
  ⟨by simp [TNode.children_mk],
    (claim_c8_subtree_weight (.mk "r" [.mk "a" [], .mk "b" [.mk "c" []]])).2.1
      (by simp [TNode.children_mk])⟩

/-- The ids of the nodes the children loop emits are the slug-joined preorder
paths of the forest. -/
theorem assignChildren_ids (p1 : List String) (d : Nat) (r : ℚ) (total : Nat)
    (span : ℚ) (n : Nat) (cs : List TNode)
    (ih : ∀ c ∈ cs, ∀ path depth, ∀ radius sa ea : ℚ,
      (assignPositions c path depth radius sa ea).1.map LNode.id
        = (preorderPaths path c).map pathId) :
    ∀ (index : Nat) (cursor : ℚ),
      (assignChildren p1 d r total span n cs index cursor).1.map LNode.id
        = (preorderPathsList p1 cs).map pathId := by
  induction cs with
  | nil =>
    intro index cursor
    rfl
  | cons c rest ihl =>
    intro index cursor
    simp only [assignChildren, preorderPathsList, List.map_append]
    rw [ih c (by simp) p1 (d + 1), ihl fun x hx => ih x (by simp [hx])]

/-- The ids of the nodes `assign_positions` emits are the slug-joined
ancestor-name paths of the subtree, in depth-first preorder. -/
theorem assignPositions_ids : ∀ (t : TNode) (path : List String) (depth : Nat),
    ∀ radius sa ea : ℚ,
    (assignPositions t path depth radius sa ea).1.map LNode.id
      = (preorderPaths path t).map pathId := by
  refine tnodeStrongInduction ?_
  intro name cs ih path depth radius sa ea
  match cs with
  | [] => rfl
  | c :: rest =>
    simp only [assignPositions, List.isEmpty_cons, Bool.false_eq_true, if_false,
      preorderPaths, List.map_cons]
    rw [assignChildren_ids _ _ _ _ _ _ _ fun x hx => ih x hx]

/-- In the children loop every emitted edge targets the node emitted with it:
targets are again the slug-joined preorder paths (children always carry a
non-empty ancestor path). -/
theorem assignChildren_targets (p1 : List String) (d : Nat) (r : ℚ) (total : Nat)
    (span : ℚ) (n : Nat) (cs : List TNode) (hp1 : p1 ≠ [])
    (ih : ∀ c ∈ cs, ∀ path, path ≠ [] → ∀ (depth : Nat), ∀ radius sa ea : ℚ,
      (assignPositions c path depth radius sa ea).2.map LEdge.target
        = (preorderPaths path c).map pathId) :
    ∀ (index : Nat) (cursor : ℚ),
      (assignChildren p1 d r total span n cs index cursor).2.map LEdge.target
        = (preorderPathsList p1 cs).map pathId := by
  induction cs with
  | nil =>
    intro index cursor
    rfl
  | cons c rest ihl =>
    intro index cursor
    simp only [assignChildren, preorderPathsList, List.map_append]
    rw [ih c (by simp) p1 hp1 (d + 1), ihl fun x hx => ih x (by simp [hx])]

/-- For a node reached through a non-empty ancestor path, the edges
`assign_positions` emits target exactly the preorder paths: one edge per
node of the subtree, the subtree root included. -/
theorem assignPositions_targets : ∀ (t : TNode) (path : List String), path ≠ [] →
    ∀ (depth : Nat), ∀ radius sa ea : ℚ,
    (assignPositions t path depth radius sa ea).2.map LEdge.target
      = (preorderPaths path t).map pathId := by
  refine tnodeStrongInduction ?_
  intro name cs ih path hpath depth radius sa ea
  have hif : path.isEmpty = false := by
    simp [List.isEmpty_iff, hpath]
  match cs with
  | [] =>
    simp [assignPositions, hif, preorderPaths, preorderPathsList]
  | c :: rest =>
    simp only [assignPositions, hif, Bool.false_eq_true, if_false, List.isEmpty_cons,
      preorderPaths, List.map_cons, List.map_append]
    simp only [List.map_nil, List.nil_append]
    rw [assignChildren_targets _ _ _ _ _ _ _ (by simp) fun x hx => ih x hx]
    simp

/-- `assign_positions` emits the subtree root first: the node itself, at the
call's radius, depth, and mid-angle. -/
theorem assignPositions_head (name : String) (cs : List TNode) (path : List String)
    (depth : Nat) (radius sa ea : ℚ) :
    ∃ rest, (assignPositions (.mk name cs) path depth radius sa ea).1
      = { id := pathId (path ++ [name]), name := name, radius := radius,
          angle := (sa + ea) / 2, depth := depth, hasChildren := !cs.isEmpty,
          childUrl := none } :: rest := by
  match cs with
  | [] => exact ⟨[], rfl⟩
  | c :: rest2 => exact ⟨_, rfl⟩

/-- The `main` loop over top-level children: ids, edge targets and counts. -/
theorem rootChildren_spec (mName : String) (total : Nat) (span : ℚ) (n : Nat) :
    ∀ (cs : List TNode) (index : Nat) (cursor : ℚ),
      ((rootChildren mName total span n cs index cursor).1.map LNode.id
          = cs.map fun c => pathId [mName, c.name])
      ∧ ((rootChildren mName total span n cs index cursor).2.map LEdge.target
          = cs.map fun c => pathId [mName, c.name])
      ∧ (rootChildren mName total span n cs index cursor).2.length
          = (rootChildren mName total span n cs index cursor).1.length := by
  intro cs
  induction cs with
  | nil =>
    intro index cursor
    exact ⟨rfl, rfl, rfl⟩
  | cons c rest ih =>
    intro index cursor
    have h := ih (index + 1) (cursor + childSpanQ span total n (leafCount c))
    refine ⟨?_, ?_, ?_⟩
    · simp only [rootChildren, List.map_cons, h.1]
    · simp only [rootChildren, List.map_cons, h.2.1]
    · simp only [rootChildren, List.length_cons, h.2.2]

/-- Counterexample to claim C2: in the branch payload of a single-leaf branch,
the payload's own root node (`rootId = "root-a"`) receives an incoming edge —
its ancestor path `["Root"]` is non-empty — so the payload has as many edges
as nodes, not one fewer. -/
theorem claim_c2_counterexample :
    (buildBranch (.mk "A" []) ["Root"]).nodes.length = 1
    ∧ (buildBranch (.mk "A" []) ["Root"]).edges
        = [{ source := "root", target := "root-a" }]
    ∧ (buildBranch (.mk "A" []) ["Root"]).rootId = "root-a"
    ∧ (buildBranch (.mk "A" []) ["Root"]).edges.length
        ≠ (buildBranch (.mk "A" []) ["Root"]).nodes.length - 1
    ∧ mainBranchWrites (.mk "Root" [.mk "A" []])
        = [("branch-a.json", buildBranch (.mk "A" []) ["Root"])] :=
  ⟨rfl, rfl, rfl, by decide, rfl⟩

/-- Claim C2 as amended: every payload has exactly one edge per node whose
ancestor path is non-empty.  In a branch payload that is every node, the
payload root included (its path holds the master root's name), so edge
targets align one-to-one with the node list and the edge count equals the
node count.  In the root payload only the top-level children have a path, so
the edge count is the child count — the node count minus one. -/
theorem claim_c2_edges_per_node :
    (∀ (t : TNode) (mName : String),
      (buildBranch t [mName]).edges.map LEdge.target
          = (buildBranch t [mName]).nodes.map LNode.id
      ∧ (buildBranch t [mName]).edges.length = (buildBranch t [mName]).nodes.length)
    ∧ (∀ master : TNode,
      (rootPayloadOf master).edges.map LEdge.target
          = (rootPayloadOf master).children.map LNode.id
      ∧ (rootPayloadOf master).edges.length = (rootPayloadOf master).children.length) := by
  constructor
  · intro t mName
    have htgt : (buildBranch t [mName]).edges.map LEdge.target
        = (buildBranch t [mName]).nodes.map LNode.id := by
      simp only [buildBranch]
      rw [assignPositions_targets t [mName] (by simp) 0 0 0 fullCircle,
        assignPositions_ids t [mName] 0 0 0 fullCircle]
    refine ⟨htgt, ?_⟩
    have := congrArg List.length htgt
    simpa using this
  · intro master
    have h := rootChildren_spec master.name (leafCountList master.children) fullCircle
      master.children.length master.children 0 0
    have htgt : (rootPayloadOf master).edges.map LEdge.target
        = (rootPayloadOf master).children.map LNode.id := by
      simp only [rootPayloadOf]
      rw [h.2.1, h.1]
    refine ⟨htgt, ?_⟩
    have := congrArg List.length htgt
    simpa using this

/-- Counterexample to claim C3: two sibling names with the same slug (`"A?"`
and `"A!"` both normalize to `"a"`) give two distinct layout nodes of the
root payload the same id `root-a`. -/
theorem claim_c3_counterexample :
    ((rootPayloadOf (.mk "Root" [.mk "A?" [], .mk "A!" []])).children.map LNode.id)
      = ["root-a", "root-a"]
    ∧ ¬ List.Nodup ((rootPayloadOf (.mk "Root" [.mk "A?" [], .mk "A!" []])).root.id
        :: (rootPayloadOf (.mk "Root" [.mk "A?" [], .mk "A!" []])).children.map LNode.id) :=
  ⟨rfl, by decide⟩

/-- Claim C3 as amended: within any payload the `LayoutNode.id`s are exactly
the slug-joined ancestor-name paths of the nodes, so they are pairwise
distinct precisely when those derived strings are — which holds for
taxonomies whose name paths normalize injectively, but can fail (two nodes
whose paths slugify identically share an id). -/
theorem claim_c3_id_uniqueness :
    (∀ (t : TNode) (mName : String),
      (buildBranch t [mName]).nodes.map LNode.id = (preorderPaths [mName] t).map pathId
      ∧ (((buildBranch t [mName]).nodes.map LNode.id).Nodup
          ↔ ((preorderPaths [mName] t).map pathId).Nodup))
    ∧ (∀ master : TNode,
      ((rootPayloadOf master).root.id :: (rootPayloadOf master).children.map LNode.id)
          = ([master.name] :: master.children.map fun c => [master.name, c.name]).map pathId
      ∧ (((rootPayloadOf master).root.id :: (rootPayloadOf master).children.map LNode.id).Nodup
          ↔ (([master.name] :: master.children.map fun c => [master.name, c.name]).map pathId).Nodup)) := by
  constructor
  · intro t mName
    have hids : (buildBranch t [mName]).nodes.map LNode.id
        = (preorderPaths [mName] t).map pathId := by
      simp only [buildBranch]
      rw [assignPositions_ids t [mName] 0 0 0 fullCircle]
    exact ⟨hids, by rw [hids]⟩
  · intro master
    have h := rootChildren_spec master.name (leafCountList master.children) fullCircle
      master.children.length master.children 0 0
    have hids : ((rootPayloadOf master).root.id
          :: (rootPayloadOf master).children.map LNode.id)
        = ([master.name] :: master.children.map fun c => [master.name, c.name]).map pathId := by
      simp only [rootPayloadOf, List.map_cons]
      rw [h.1, List.map_map]
      rfl
    exact ⟨hids, by rw [hids]⟩

/-- Claim C10: a branch payload lists its nodes in depth-first preorder of
the branch subtree (children in source order, the payload root first), and
the emitted edges follow the same order — the edge-target list coincides with
the node-id list. -/
theorem claim_c10_preorder (t : TNode) (mName : String) :
    (buildBranch t [mName]).nodes.map LNode.id = (preorderPaths [mName] t).map pathId
    ∧ ((buildBranch t [mName]).nodes.head?).map LNode.id = some (pathId [mName, t.name])
    ∧ (buildBranch t [mName]).edges.map LEdge.target
        = (buildBranch t [mName]).nodes.map LNode.id := by
  refine ⟨?_, ?_, ?_⟩
  · simp only [buildBranch]
    rw [assignPositions_ids t [mName] 0 0 0 fullCircle]
  · match t with
    | .mk name cs =>
      obtain ⟨rest, hrest⟩ := assignPositions_head name cs [mName] 0 0 0 fullCircle
      simp only [buildBranch, hrest, List.head?_cons, Option.map_some, TNode.name_mk]
      rfl
  · simp only [buildBranch]
    rw [assignPositions_targets t [mName] (by simp) 0 0 0 fullCircle,
      assignPositions_ids t [mName] 0 0 0 fullCircle]

/-- Counterexample to claim C1: with branches of weight 2 (`A`, two leaves)
and 1 (`B`), branch `A`'s proportional share is 2/3 of the circle, but the
payload `main` writes for `A` is laid out over the full circle: its node
angles are `π, π/2, 3π/2` (in units of π: `1, 1/2, 3/2`), not the
`2π/3, π/3, π` (`2/3, 1/3, 1`) the share-based invocation would give — the
two payloads differ. -/
theorem claim_c1_counterexample :
    (mainBranchWrites (.mk "Root" [.mk "A" [.mk "A1" [], .mk "A2" []], .mk "B" []])).head?
      = some ("branch-a.json", buildBranch (.mk "A" [.mk "A1" [], .mk "A2" []]) ["Root"])
    ∧ (buildBranch (.mk "A" [.mk "A1" [], .mk "A2" []]) ["Root"]).nodes.map LNode.angle
        = [1, 1/2, 3/2]
    ∧ (buildBranchByShare (.mk "Root" [.mk "A" [.mk "A1" [], .mk "A2" []], .mk "B" []])
          (.mk "A" [.mk "A1" [], .mk "A2" []]) 0).nodes.map LNode.angle
        = [2/3, 1/3, 1]
    ∧ buildBranch (.mk "A" [.mk "A1" [], .mk "A2" []]) ["Root"]
        ≠ buildBranchByShare (.mk "Root" [.mk "A" [.mk "A1" [], .mk "A2" []], .mk "B" []])
            (.mk "A" [.mk "A1" [], .mk "A2" []]) 0 := by
  have h1 : (buildBranch (.mk "A" [.mk "A1" [], .mk "A2" []]) ["Root"]).nodes.map LNode.angle
      = [1, 1/2, 3/2] := by
    simp only [buildBranch, assignPositions, assignChildren, leafCount, leafCountList,
      childSpanQ, fullCircle, List.isEmpty_cons, List.isEmpty_nil, List.map_cons, List.map_nil]
    norm_num
  have h2 : (buildBranchByShare (.mk "Root" [.mk "A" [.mk "A1" [], .mk "A2" []], .mk "B" []])
        (.mk "A" [.mk "A1" [], .mk "A2" []]) 0).nodes.map LNode.angle
      = [2/3, 1/3, 1] := by
    simp only [buildBranchByShare, buildBranch, assignPositions, assignChildren, leafCount,
      leafCountList, childSpanQ, fullCircle, TNode.name_mk, TNode.children_mk,
      List.isEmpty_cons, List.isEmpty_nil, List.map_cons, List.map_nil]
    norm_num
  refine ⟨rfl, h1, h2, fun h => ?_⟩
  have := congrArg (fun p => p.nodes.map LNode.angle) h
  simp only at this
  rw [h1, h2] at this
  norm_num at this

/-- Claim C1 as amended: `main` writes, for each top-level branch, the
payload produced by invoking the layout engine with depth 0, radius 0 and
the FULL master circle as the angular span (not the branch's proportional
share); `rootId` is the branch node's id and the payload root sits at the
origin (radius 0, depth 0). -/
theorem claim_c1_branch_invocation (master : TNode) (c : TNode) (hc : c ∈ master.children) :
    (branchFileName (slugify c.name), buildBranch c [master.name]) ∈ mainBranchWrites master
    ∧ buildBranch c [master.name]
        = { rootId := pathId [master.name, c.name],
            nodes := (assignPositions c [master.name] 0 0 0 fullCircle).1,
            edges := (assignPositions c [master.name] 0 0 0 fullCircle).2 }
    ∧ ∃ rest, (buildBranch c [master.name]).nodes
        = { id := pathId [master.name, c.name], name := c.name, radius := 0,
            angle := (0 + fullCircle) / 2, depth := 0,
            hasChildren := !c.children.isEmpty, childUrl := none } :: rest := by
  refine ⟨List.mem_map_of_mem _ hc, rfl, ?_⟩
  match c with
  | .mk name cs =>
    obtain ⟨rest, hrest⟩ := assignPositions_head name cs [master.name] 0 0 0 fullCircle
    exact ⟨rest, by simp only [buildBranch, TNode.name_mk, TNode.children_mk, hrest]; rfl⟩

/-- Witness for the amended claim C1 at a concrete one-branch taxonomy. -/
theorem claim_c1_branch_invocation_witness :
    (TNode.mk "A" [] ∈ (TNode.mk "Root" [.mk "A" []]).children)
    ∧ (branchFileName (slugify (TNode.mk "A" []).name),
        buildBranch (.mk "A" []) [(TNode.mk "Root" [.mk "A" []]).name])
        ∈ mainBranchWrites (.mk "Root" [.mk "A" []]) :=
  ⟨by simp [TNode.children_mk],
    (claim_c1_branch_invocation (.mk "Root" [.mk "A" []]) (.mk "A" [])
      (by simp [TNode.children_mk])).1⟩

/-- A missing `name` anywhere in a subtree aborts the children loop of
`assign_positions`. -/
theorem rawAssignChildren_error (cs : List RawNode)
    (ih : ∀ c ∈ cs, hasMissingName c = true → ∀ (path : List String) (depth : Nat),
      ∀ radius sa ea : ℚ, rawAssignPositions c path depth radius sa ea = .error ())
    (h : hasMissingNameList cs = true) :
    ∀ (p1 : List String) (d : Nat) (r : ℚ) (total : Nat) (span : ℚ) (n index : Nat)
      (cursor : ℚ),
      rawAssignChildren p1 d r total span n cs index cursor = .error () := by
  induction cs with
  | nil => simp [hasMissingNameList] at h
  | cons c rest ihl =>
    intro p1 d r total span n index cursor
    rcases hm : hasMissingName c with hfalse | htrue
    · have hrest : hasMissingNameList rest = true := by
        simpa [hasMissingNameList, hm] using h
      rcases hres : rawAssignPositions c p1 (d + 1)
          (childRadius r (d + 1) n index) cursor
          (cursor + childSpanQ span total n (rawLeafCount c)) with e | ok
      · simp only [rawAssignChildren, hres]
      · simp only [rawAssignChildren, hres,
          ihl (fun x hx => ih x (by simp [hx])) hrest p1 d r total span n (index + 1)
            (cursor + childSpanQ span total n (rawLeafCount c))]
    · simp only [rawAssignChildren, ih c (by simp) hm p1 (d + 1)]

/-- A missing `name` anywhere in a subtree aborts `assign_positions`. -/
theorem rawAssignPositions_error : ∀ t : RawNode, hasMissingName t = true →
    ∀ (path : List String) (depth : Nat), ∀ radius sa ea : ℚ,
    rawAssignPositions t path depth radius sa ea = .error () := by
  refine rawNodeStrongInduction ?_
  intro nameOpt cs ih h path depth radius sa ea
  match nameOpt with
  | none => rfl
  | some nm =>
    have hcs : hasMissingNameList cs = true := by
      simpa [hasMissingName] using h
    match cs, hcs with
    | c :: rest, hcs =>
      simp only [rawAssignPositions, List.isEmpty_cons, Bool.false_eq_true, if_false,
        rawAssignChildren_error (c :: rest) (fun x hx hmx => ih x hx hmx) hcs]

/-- A missing `name` anywhere in a branch aborts `build_branch`. -/
theorem rawBuildBranch_error (c : RawNode) (h : hasMissingName c = true)
    (parentPath : List String) : rawBuildBranch c parentPath = .error () := by
  simp only [rawBuildBranch, rawAssignPositions_error c h parentPath 0 0 0 fullCircle]

/-- With the master `name` missing, the branch loop fails in its first
iteration, before writing anything. -/
theorem rawMainLoop_noMaster (c : RawNode) (rest : List RawNode)
    (total : Nat) (span : ℚ) (n index : Nat) (cursor : ℚ) :
    rawMainLoop none total span n (c :: rest) index cursor = ([], .error ()) := by
  rcases c with ⟨nameOpt, cs⟩
  match nameOpt with
  | none => rfl
  | some nm => rfl

/-- With the master `name` present but some branch node's `name` missing, the
branch loop ends in the error outcome (after writing the files of the
branches that preceded the failure). -/
theorem rawMainLoop_error (mName : String) (cs : List RawNode)
    (h : hasMissingNameList cs = true) :
    ∀ (total : Nat) (span : ℚ) (n index : Nat) (cursor : ℚ),
      (rawMainLoop (some mName) total span n cs index cursor).2 = .error () := by
  induction cs with
  | nil => simp [hasMissingNameList] at h
  | cons c rest ihl =>
    intro total span n index cursor
    rcases hm : hasMissingName c with hfalse | htrue
    · have hrest : hasMissingNameList rest = true := by
        simpa [hasMissingNameList, hm] using h
      rcases c with ⟨nameOpt, ccs⟩
      match nameOpt, hm with
      | some cn, hm =>
        rcases hbb : rawBuildBranch (.mk (some cn) ccs) [mName] with e | ok
        · simp only [rawMainLoop, RawNode.name, hbb]
        · simp only [rawMainLoop, RawNode.name, hbb,
            ihl hrest total span n (index + 1) _]
    · rcases c with ⟨nameOpt, ccs⟩
      match nameOpt, hm with
      | none, _ => rfl
      | some cn, hm =>
        simp only [rawMainLoop, RawNode.name,
          rawBuildBranch_error (.mk (some cn) ccs) hm [mName]]

/-- Every file the branch loop writes is a `branch-<slug>.json` file. -/
theorem rawMainLoop_writes (masterName : Option String) (total : Nat) (span : ℚ)
    (n : Nat) :
    ∀ (cs : List RawNode) (index : Nat) (cursor : ℚ),
    ∀ x ∈ (rawMainLoop masterName total span n cs index cursor).1,
      ∃ s, x = branchFileName s := by
  intro cs
  induction cs with
  | nil =>
    intro index cursor x hx
    simp [rawMainLoop] at hx
  | cons c rest ihl =>
    intro index cursor x hx
    rcases c with ⟨nameOpt, ccs⟩
    match nameOpt with
    | none => simp [rawMainLoop, RawNode.name] at hx
    | some cn =>
      match masterName with
      | none => simp [rawMainLoop, RawNode.name] at hx
      | some mName =>
        rcases hbb : rawBuildBranch (.mk (some cn) ccs) [mName] with e | ok
        · simp [rawMainLoop, RawNode.name, hbb] at hx
        · simp only [rawMainLoop, RawNode.name, hbb, List.mem_cons] at hx
          rcases hx with hx | hx
          · exact ⟨slugify cn, hx⟩
          · exact ihl (index + 1) _ x hx

/-- `root.json` is not a branch file name. -/
theorem rootJson_ne_branchFileName (s : String) : "root.json" ≠ branchFileName s := by
  intro h
  have hlen := congrArg String.length h
  simp only [branchFileName, String.length_append] at hlen
  rw [show ("root.json").length = 9 from rfl, show ("branch-").length = 7 from rfl,
    show (".json").length = 5 from rfl] at hlen
  omega

/-- Claim C4 as amended: a taxonomy document missing the required `name`
field at any node makes the run fail (the outcome is an error and `root.json`
is never written), but the failure is NOT atomic across branch payloads:
branch files already written before the failing branch persist. -/
theorem claim_c4_missing_name (m : RawNode) (h : hasMissingName m = true) :
    (rawMain m).2 = .error () ∧ "root.json" ∉ (rawMain m).1 := by
  rcases m with ⟨nameOpt, cs⟩
  match nameOpt with
  | none =>
    match cs with
    | [] => exact ⟨rfl, by simp [rawMain, rawMainLoop, RawNode.name, RawNode.children]⟩
    | c :: rest =>
      constructor
      · simp only [rawMain, RawNode.name, RawNode.children,
          rawMainLoop_noMaster c rest _ _ _ _ _]
      · simp only [rawMain, RawNode.name, RawNode.children,
          rawMainLoop_noMaster c rest _ _ _ _ _]
        simp
  | some mn =>
    have hcs : hasMissingNameList cs = true := by
      simpa [hasMissingName] using h
    have herr := rawMainLoop_error mn cs hcs (rawLeafCountList cs) fullCircle
      cs.length 0 0
    rcases hloop : rawMainLoop (some mn) (rawLeafCountList cs) fullCircle
        cs.length cs 0 0 with ⟨writes, outcome⟩
    rw [hloop] at herr
    simp only at herr
    subst herr
    constructor
    · simp only [rawMain, RawNode.name, RawNode.children, hloop]
    · simp only [rawMain, RawNode.name, RawNode.children, hloop]
      intro hmem
      obtain ⟨s, hs⟩ := rawMainLoop_writes (some mn) (rawLeafCountList cs) fullCircle
        cs.length cs 0 0 "root.json" (by rw [hloop]; exact hmem)
      exact rootJson_ne_branchFileName s hs

/-- Counterexample to claim C4: with a well-formed first branch and a second
branch missing its `name`, the run aborts — but only after the first branch's
payload file was already written, so the set of emitted payloads on error is
NOT empty. -/
theorem claim_c4_counterexample :
    (rawMain (.mk (some "Root") [.mk (some "B1") [], .mk none []])).1
      = ["branch-b1.json"]
    ∧ (rawMain (.mk (some "Root") [.mk (some "B1") [], .mk none []])).2 = .error ()
    ∧ (rawMain (.mk (some "Root") [.mk (some "B1") [], .mk none []])).1 ≠ [] :=
  ⟨rfl, rfl, by decide⟩

/-- Witness for the amended claim C4 at a one-node document without a name. -/
theorem claim_c4_missing_name_witness :
    hasMissingName (.mk none []) = true
    ∧ "root.json" ∉ (rawMain (.mk none [])).1 :=
  ⟨rfl, (claim_c4_missing_name (.mk none []) rfl).2⟩

theorem slugChar_ne_dash {c : Char} (h : isSlugChar c = true) : c ≠ '-' := by
  intro he
  subst he
  simp [isSlugChar] at h

/-- The second regex pass (`collapseDashes`) is the identity on the output
of the first (`dashRuns`): the first pass never emits two adjacent hyphens. -/
theorem collapse_dashRuns (l : List Char) :
    collapseDashes (dashRuns l) = dashRuns l
    ∧ collapseDashes (dashRunsSkip l) = dashRunsSkip l
    ∧ collapseDashesSkip (dashRunsSkip l) = dashRunsSkip l := by
  induction l with
  | nil => exact ⟨rfl, rfl, rfl⟩
  | cons c cs ih =>
    rcases hsc : isSlugChar c with hf | ht
    · refine ⟨?_, ?_, ?_⟩
      · simp only [dashRuns, hsc, Bool.false_eq_true, if_false, collapseDashes,
          if_pos rfl, if_true, eq_self_iff_true, ih.2.2]
      · simp only [dashRunsSkip, hsc, Bool.false_eq_true, if_false, ih.2.1, ih.2.2]
      · simp only [dashRunsSkip, hsc, Bool.false_eq_true, if_false, ih.2.1, ih.2.2]
    · have hne : (c = '-') = False := by
        simp [slugChar_ne_dash hsc]
      refine ⟨?_, ?_, ?_⟩
      · simp only [dashRuns, hsc, if_true, collapseDashes, hne, if_false, ih.1]
      · simp only [dashRunsSkip, hsc, if_true, collapseDashes, hne, if_false, ih.1]
      · simp only [dashRunsSkip, hsc, if_true, collapseDashesSkip, hne, if_false, ih.1]

theorem stripDashes_eq_stripTrail (l : List Char) :
    stripDashes l = stripTrail (l.dropWhile (· = '-')) := rfl

theorem dashRunsSkip_eq (l : List Char) :
    dashRunsSkip l = dashRuns (l.dropWhile fun c => !isSlugChar c) := by
  induction l with
  | nil => rfl
  | cons c cs ih =>
    rcases hsc : isSlugChar c with hf | ht
    · simp only [dashRunsSkip, hsc, Bool.false_eq_true, if_false, ih,
        List.dropWhile_cons, Bool.not_false, if_true]
    · simp only [dashRunsSkip, hsc, if_true, List.dropWhile_cons, Bool.not_true,
        Bool.false_eq_true, if_false, dashRuns]

theorem dropWhile_shape (p : Char → Bool) (l : List Char) :
    l.dropWhile p = [] ∨ ∃ d ds, l.dropWhile p = d :: ds ∧ p d = false := by
  induction l with
  | nil => exact Or.inl rfl
  | cons c cs ih =>
    rcases hp : p c with hf | ht
    · exact Or.inr ⟨c, cs, by simp [List.dropWhile_cons, hp], hp⟩
    · simpa [List.dropWhile_cons, hp] using ih

theorem dashRuns_alnum_prefix (tok rest : List Char)
    (h : ∀ c ∈ tok, isSlugChar c = true) :
    dashRuns (tok ++ rest) = tok ++ dashRuns rest := by
  induction tok with
  | nil => rfl
  | cons c cs ih =>
    simp only [List.cons_append, dashRuns, h c (by simp), if_true, List.append_eq,
      ih fun x hx => h x (by simp [hx])]

theorem stripTrail_of_no_dash (X : List Char) (h : ∀ c ∈ X, c ≠ '-') : stripTrail X = X := by
  rcases hrev : X.reverse with _ | ⟨y, ys⟩
  · have : X = [] := by simpa using congrArg List.reverse hrev
    simp [this, stripTrail]
  · have hy : y ∈ X := by
      have : y ∈ X.reverse := by simp [hrev]
      simpa using this
    simp only [stripTrail, hrev, List.dropWhile_cons, decide_eq_true_eq, h y hy, if_false]
    simpa using congrArg List.reverse hrev.symm

theorem stripTrail_append_dash (X : List Char) : stripTrail (X ++ ['-']) = stripTrail X := by
  simp only [stripTrail, List.reverse_append, List.reverse_cons, List.reverse_nil,
    List.nil_append, List.cons_append, List.dropWhile_cons]
  simp

theorem dropWhile_ne_nil_of_exists (p : Char → Bool) (Y : List Char)
    (h : ∃ y ∈ Y, p y = false) : Y.dropWhile p ≠ [] := by
  induction Y with
  | nil => simp at h
  | cons a as ih =>
    obtain ⟨y, hy, hpy⟩ := h
    rcases hpa : p a with hf | ht
    · simp [List.dropWhile_cons, hpa]
    · rcases List.mem_cons.mp hy with rfl | hyas
      · rw [hpa] at hpy
        cases hpy
      · simpa [List.dropWhile_cons, hpa] using ih ⟨y, hyas, hpy⟩

theorem stripTrail_append (X Y : List Char) (h : ∃ y ∈ Y, y ≠ '-') :
    stripTrail (X ++ Y) = X ++ stripTrail Y := by
  have hne : Y.reverse.dropWhile (· = '-') ≠ [] := by
    refine dropWhile_ne_nil_of_exists _ _ ?_
    obtain ⟨y, hy, hyd⟩ := h
    exact ⟨y, by simpa using hy, by simpa using hyd⟩
  simp only [stripTrail, List.reverse_append, List.dropWhile_append,
    List.isEmpty_iff, if_neg hne, List.reverse_append, List.reverse_reverse]

theorem dropWhile_dash_dashRuns (l : List Char) :
    (dashRuns (l.dropWhile fun c => !isSlugChar c)).dropWhile (· = '-')
      = dashRuns (l.dropWhile fun c => !isSlugChar c) := by
  rcases dropWhile_shape (fun c => !isSlugChar c) l with h | ⟨d, ds, hd, hpd⟩
  · simp [h, dashRuns]
  · have halnum : isSlugChar d = true := by simpa using hpd
    rw [hd]
    simp only [dashRuns, halnum, if_true, List.dropWhile_cons]
    simp [slugChar_ne_dash halnum]

/-- Replace-strip-collapse equals extract-tokens-and-join: the output of the
first regex pass, after stripping edge hyphens, is exactly the maximal
alphanumeric runs joined with single hyphens. -/
theorem stripDashes_dashRuns : ∀ (n : Nat) (l : List Char), l.length ≤ n →
    stripDashes (dashRuns l) = joinToks (alnumTokens l) := by
  intro n
  induction n with
  | zero =>
    intro l hl
    have : l = [] := List.length_eq_zero.mp (Nat.le_zero.mp hl)
    subst this
    simp [stripDashes, dashRuns, alnumTokens, joinToks]
  | succ n ih =>
    intro l hl
    match l with
    | [] => simp [stripDashes, dashRuns, alnumTokens, joinToks]
    | c :: cs =>
      have hcs : cs.length ≤ n := by
        simp only [List.length_cons] at hl
        omega
      rcases hsc : isSlugChar c with hf | ht
      · have hlen : (cs.dropWhile fun d => !isSlugChar d).length ≤ n := by
          have := (List.dropWhile_sublist (fun d => !isSlugChar d) (l := cs)).length_le
          omega
        have htoks : alnumTokens (c :: cs)
            = alnumTokens (cs.dropWhile fun d => !isSlugChar d) := by
          simp [alnumTokens, hsc]
        have hmain := ih (cs.dropWhile fun d => !isSlugChar d) hlen
        rw [stripDashes_eq_stripTrail, dropWhile_dash_dashRuns cs] at hmain
        rw [stripDashes_eq_stripTrail]
        simp only [dashRuns, hsc, Bool.false_eq_true, if_false, List.dropWhile_cons]
        rw [if_pos (by norm_num), dashRunsSkip_eq, dropWhile_dash_dashRuns cs, htoks]
        exact hmain
      · have htokall : ∀ x ∈ c :: cs.takeWhile isSlugChar, isSlugChar x = true := by
          intro x hx
          rcases List.mem_cons.mp hx with rfl | hx2
          · exact hsc
          · exact List.mem_takeWhile_imp hx2
        have hsplit : (c :: cs) = (c :: cs.takeWhile isSlugChar) ++ cs.dropWhile isSlugChar := by
          simp [List.takeWhile_append_dropWhile]
        have hdr : dashRuns (c :: cs)
            = (c :: cs.takeWhile isSlugChar) ++ dashRuns (cs.dropWhile isSlugChar) := by
          conv_lhs => rw [hsplit]
          exact dashRuns_alnum_prefix _ _ htokall
        have htoks : alnumTokens (c :: cs)
            = (c :: cs.takeWhile isSlugChar) :: alnumTokens (cs.dropWhile isSlugChar) := by
          simp [alnumTokens, hsc]
        have hlead : (dashRuns (c :: cs)).dropWhile (· = '-') = dashRuns (c :: cs) := by
          simp only [dashRuns, hsc, if_true, List.dropWhile_cons]
          simp [slugChar_ne_dash hsc]
        rw [stripDashes_eq_stripTrail, hlead, hdr, htoks]
        rcases hrestcase : cs.dropWhile isSlugChar with _ | ⟨d, ds⟩
        · simp only [dashRuns, List.append_nil, alnumTokens, joinToks]
          exact stripTrail_of_no_dash _ fun x hx => slugChar_ne_dash (htokall x hx)
        · have hd : isSlugChar d = false := by
            rcases dropWhile_shape isSlugChar cs with hsh | ⟨d2, ds2, hd2, hp2⟩
            · rw [hrestcase] at hsh
              cases hsh
            · rw [hrestcase] at hd2
              injection hd2 with h1 h2
              rw [← h1] at hp2
              exact hp2
          have hdsr : dashRuns (d :: ds) = '-' :: dashRuns (ds.dropWhile fun x => !isSlugChar x) := by
            simp only [dashRuns, hd, Bool.false_eq_true, if_false, dashRunsSkip_eq]
          have htoks2 : alnumTokens (d :: ds)
              = alnumTokens (ds.dropWhile fun x => !isSlugChar x) := by
            simp [alnumTokens, hd]
          rw [hdsr, htoks2]
          rcases dropWhile_shape (fun x => !isSlugChar x) ds with hds | ⟨e, es, he, hpe⟩
          · rw [hds]
            simp only [dashRuns, alnumTokens, joinToks]
            rw [show (c :: cs.takeWhile isSlugChar) ++ ['-']
                = (c :: cs.takeWhile isSlugChar) ++ ['-'] from rfl,
              stripTrail_append_dash]
            exact stripTrail_of_no_dash _ fun x hx => slugChar_ne_dash (htokall x hx)
          · have halnume : isSlugChar e = true := by simpa using hpe
            have hlen2 : (e :: es).length ≤ n := by
              have h1 := (List.dropWhile_sublist (fun x => !isSlugChar x) (l := ds)).length_le
              rw [he] at h1
              have h2 := (List.dropWhile_sublist isSlugChar (l := cs)).length_le
              rw [hrestcase] at h2
              simp only [List.length_cons] at h1 h2 ⊢
              omega
            have hmain := ih (e :: es) hlen2
            have hlead2 : (dashRuns (e :: es)).dropWhile (· = '-') = dashRuns (e :: es) := by
              simp only [dashRuns, halnume, if_true, List.dropWhile_cons]
              simp [slugChar_ne_dash halnume]
            rw [stripDashes_eq_stripTrail, hlead2] at hmain
            rw [he]
            have hyne : ∃ y ∈ dashRuns (e :: es), y ≠ '-' := by
              refine ⟨e, ?_, slugChar_ne_dash halnume⟩
              simp [dashRuns, halnume]
            rw [List.append_cons, stripTrail_append _ _ hyne, hmain]
            have htokse : alnumTokens (e :: es)
                = (e :: es.takeWhile isSlugChar) :: alnumTokens (es.dropWhile isSlugChar) := by
              simp [alnumTokens, halnume]
            rw [htokse]
            rw [show ∀ (t t2 : List Char) ts, joinToks (t :: t2 :: ts)
                = t ++ '-' :: joinToks (t2 :: ts) from fun t t2 ts => rfl]
            simp [List.append_assoc]

theorem alnumTokens_ne_nil : ∀ (n : Nat) (l : List Char), l.length ≤ n →
    ∀ t ∈ alnumTokens l, t ≠ [] := by
  intro n
  induction n with
  | zero =>
    intro l hl t ht
    have : l = [] := List.length_eq_zero.mp (Nat.le_zero.mp hl)
    subst this
    simp [alnumTokens] at ht
  | succ n ih =>
    intro l hl t ht
    match l with
    | [] => simp [alnumTokens] at ht
    | c :: cs =>
      have hcs : cs.length ≤ n := by
        simp only [List.length_cons] at hl
        omega
      rcases hsc : isSlugChar c with hf | htc
      · rw [show alnumTokens (c :: cs) = alnumTokens (cs.dropWhile fun d => !isSlugChar d) from by
          simp [alnumTokens, hsc]] at ht
        have := (List.dropWhile_sublist (fun d => !isSlugChar d) (l := cs)).length_le
        exact ih _ (by omega) t ht
      · rw [show alnumTokens (c :: cs)
            = (c :: cs.takeWhile isSlugChar) :: alnumTokens (cs.dropWhile isSlugChar) from by
          simp [alnumTokens, hsc]] at ht
        rcases List.mem_cons.mp ht with rfl | ht2
        · simp
        · have := (List.dropWhile_sublist isSlugChar (l := cs)).length_le
          exact ih _ (by omega) t ht2

theorem joinToks_ne_nil (t : List Char) (ts : List (List Char)) (h : t ≠ []) :
    joinToks (t :: ts) ≠ [] := by
  match ts with
  | [] => simpa [joinToks] using h
  | t2 :: ts2 => simp [joinToks]

/-- `slugify` as implemented (two regex substitutions, strip, fallback)
equals the claim-side normal form. -/
theorem slugify_eq_spec (s : String) : slugify s = slugifySpec s := by
  have hcd := (collapse_dashRuns (s.data.map Char.toLower)).1
  have hmain := stripDashes_dashRuns (s.data.map Char.toLower).length
    (s.data.map Char.toLower) le_rfl
  rcases htoks : alnumTokens (s.data.map Char.toLower) with _ | ⟨t, ts⟩
  · simp only [slugify, slugifySpec, hcd, hmain, htoks, joinToks, List.isEmpty_nil,
      if_true]
  · have htne : t ≠ [] :=
      alnumTokens_ne_nil (s.data.map Char.toLower).length _ le_rfl t (by simp [htoks])
    have hne := joinToks_ne_nil t ts htne
    simp only [slugify, slugifySpec, hcd, hmain, htoks, List.isEmpty_cons,
      Bool.false_eq_true, if_false, List.isEmpty_iff, hne]

/-- Claim C7: the identifier deriver is pure and total — each segment is
lowercased, every maximal run outside `[a-z0-9]` collapses to a single
hyphen with no repeated, leading or trailing hyphen remaining (equivalently,
the maximal alphanumeric runs of the lowercased segment joined by single
hyphens), a segment with no alphanumeric character (such as `"???"`) becomes
the fallback token `node`, the path id joins the normalized segments with
hyphens, and identical name paths always give identical ids. -/
theorem claim_c7_identifier_deriver :
    (∀ s, slugify s = slugifySpec s)
    ∧ slugify "???" = "node"
    ∧ (∀ path, pathId path = String.intercalate "-" (path.map slugify))
    ∧ (∀ p q : List String, p = q → pathId p = pathId q) :=
  ⟨slugify_eq_spec, by decide, fun path => rfl, fun p q h => by rw [h]⟩

/-- Witness for claim C7 at a concrete path. -/
theorem claim_c7_identifier_deriver_witness :
    (["Root", "A"] : List String) = ["Root", "A"]
    ∧ pathId ["Root", "A"] = pathId ["Root", "A"] :=
  ⟨rfl, claim_c7_identifier_deriver.2.2.2 ["Root", "A"] ["Root", "A"] rfl⟩
